import Mathlib

/-!
Verification of the ClipSearch indexing-and-retrieval engine
(`clip_search/core/image_engine.py`) against its specification.

The engine is shallow-embedded: pure fragments of the Python become Lean
functions, the stateful `ImageEngine` object becomes an explicit
`EngineState` record threaded through the operations, and the external
collaborators (the CLIP model, the filesystem) become function parameters.
Embedding vectors are modelled as lists of rationals (`Vec`); the
per-image "preprocess + decode + encode + normalize" pipeline is a single
parameter `embedOf : Path → Option Vec` where `none` models a decode
failure (`PIL` raising on a corrupted file) and `some v` the normalized
feature vector the model produces for that path.
-/

namespace ClipSearch

abbrev Path := String

abbrev Vec := List ℚ

/-- Python `dict.get` on a path-keyed feature dictionary, modelled as
first-match lookup in an insertion-ordered association list (keys are
inserted at most once in the engine, so first-match equals dict lookup). -/
def dictGet : List (Path × Vec) → Path → Option Vec
  | [], _ => none
  | (k, v) :: rest, p => if k = p then some v else dictGet rest p

/-- The mutable fields of `ImageEngine` that the indexing and search
operations touch: `_is_indexing`, `image_paths`, `image_features`,
`current_directory`.  `imageFeatures = none` models the initial
`self.image_features = None`. -/
structure EngineState where
  isIndexing : Bool
  imagePaths : List Path
  imageFeatures : Option (List Vec)
  currentDirectory : Option Path
deriving Repr, DecidableEq

/-- The on-disk pickle payload `{'features': ..., 'directory_hash': ...}`. -/
structure CacheData where
  directoryHash : String
  features : List (Path × Vec)
deriving Repr, DecidableEq

/-- Terminal outcome of one `index_directory` run, i.e. which signal the
run emits last. -/
inductive IndexOutcome where
  /-- `error("No images found in the selected directory.")` -/
  | noImages
  /-- `finished("Indexing cancelled.")` -/
  | cancelled
  /-- `finished("Indexing complete. ...")` -/
  | completed
  /-- the `except` branch: `torch.stack` on an empty list raised after
  `image_paths` was already reassigned, so `error(...)` was emitted. -/
  | stackError
deriving Repr, DecidableEq

/-- Result of one `index_directory` run: the engine state it leaves
behind, what (if anything) it wrote to the cache file, which paths it fed
to the embedding pipeline (`Image.open`/`encode_image`), and its outcome. -/
structure IndexResult where
  state : EngineState
  cacheWrite : Option CacheData
  embedded : List Path
  outcome : IndexOutcome
deriving Repr, DecidableEq

/-- The cache-loading step of `index_directory` (lines loading the pickle):
the loaded `features` dict is kept only when the stored `directory_hash`
equals the freshly computed one; a missing or unreadable cache file
(`diskCache = none`) and a fingerprint mismatch both leave `cached_data`
as the empty dict. -/
def cachedFrom (diskCache : Option CacheData) (freshHash : String) :
    List (Path × Vec) :=
  match diskCache with
  | some d => if d.directoryHash = freshHash then d.features else []
  | none => []

/-- `paths_to_process = [p for p in all_paths if p not in cached_data]`. -/
def pathsToProcessOf (allPaths : List Path) (cached : List (Path × Vec)) :
    List Path :=
  allPaths.filter (fun p => (dictGet cached p).isNone)

/-- The batch loop of `index_directory`.  `cancel i` is the value of
`not self._is_indexing` observed at the top of batch number `i` (the
flag is only ever flipped by `stop_indexing` from outside).  Returns
`none` when the loop observed cancellation and returned early, otherwise
`some (finalDict, embeddedPaths)`: the feature dict after all batches and
the list of paths that were fed to the embedding pipeline, in order.
For each batch of size `bs` (`config.BATCH_SIZE`, positive), paths whose
decode fails (`embedOf p = none`) are skipped and the rest are written
into the dict in batch order. -/
def processBatches (embedOf : Path → Option Vec) (cancel : Nat → Bool)
    (bs : Nat) :
    List Path → List (Path × Vec) → Nat →
      Option (List (Path × Vec) × List Path)
  | [], acc, _ => some (acc, [])
  | p :: ps, acc, i =>
    if cancel i then none
    else
      let batch := p :: ps.take (bs - 1)
      let rest := ps.drop (bs - 1)
      let newOnes := batch.filterMap (fun q => (embedOf q).map ((q, ·)))
      match processBatches embedOf cancel bs rest (acc ++ newOnes) (i + 1) with
      | none => none
      | some (d, es) => some (d, batch ++ es)
termination_by l => l.length
decreasing_by
  simp only [List.length_drop, List.length_cons]
  omega

/-- Shallow embedding of `ImageEngine.index_directory`.  The directory
scan result (`all_paths`), the freshly computed directory hash, and the
current cache-file contents are inputs; the filesystem writes are
reported in the result rather than performed. -/
def indexDirectory (embedOf : Path → Option Vec) (cancel : Nat → Bool)
    (bs : Nat) (folder : Path) (allPaths : List Path)
    (diskCache : Option CacheData) (freshHash : String)
    (st : EngineState) : IndexResult :=
  -- self._is_indexing = True ; self.current_directory = image_folder
  let st1 : EngineState :=
    { st with isIndexing := true, currentDirectory := some folder }
  if allPaths.isEmpty then
    -- error emitted, `finally` clears the flag, nothing written
    { state := { st1 with isIndexing := false },
      cacheWrite := none, embedded := [], outcome := .noImages }
  else
    let cached := cachedFrom diskCache freshHash
    let ptp := pathsToProcessOf allPaths cached
    match processBatches embedOf cancel bs ptp cached 0 with
    | none =>
      -- cancelled before some batch: return before the cache write and
      -- before the snapshot assignment; `finally` clears the flag
      { state := { st1 with isIndexing := false },
        cacheWrite := none, embedded := [], outcome := .cancelled }
    | some (finalData, es) =>
      let write : CacheData := ⟨freshHash, finalData⟩
      let newPaths := allPaths.filter (fun p => (dictGet finalData p).isSome)
      let feats := allPaths.filterMap (dictGet finalData)
      if feats.isEmpty then
        -- torch.stack([]) raises after image_paths was reassigned;
        -- the except branch emits error, `finally` clears the flag
        { state := { st1 with isIndexing := false, imagePaths := newPaths },
          cacheWrite := some write, embedded := es, outcome := .stackError }
      else
        { state :=
            { st1 with
                isIndexing := false
                imagePaths := newPaths
                imageFeatures := some feats },
          cacheWrite := some write, embedded := es, outcome := .completed }

/-- Dot product of two feature vectors (`image_features @ query_features.T`
row-wise); both sides are unit-normalized by the engine, so this is the
cosine similarity the code ranks by. -/
def dot (a b : Vec) : ℚ := (List.zipWith (· * ·) a b).sum

/-- Pair each similarity with its row index — the value/index pairs
`torch.topk` works over. -/
def withIdx (scores : List ℚ) : List (ℚ × Nat) :=
  scores.enum.map (fun pr => (pr.2, pr.1))

/-- The descending-score comparison `torch.topk` orders by. -/
def scoreGE (a b : ℚ × Nat) : Prop := b.1 ≤ a.1

instance : DecidableRel scoreGE :=
  fun a b => inferInstanceAs (Decidable (b.1 ≤ a.1))

instance : IsTotal (ℚ × Nat) scoreGE := ⟨fun a b => le_total b.1 a.1⟩

instance : IsTrans (ℚ × Nat) scoreGE :=
  ⟨fun _ _ _ hab hbc => le_trans hbc hab⟩

/-- `torch.topk(similarities, k)`: the `k` largest entries with their
indices, in descending score order.  Modelled as a stable sort of the
(score, index) pairs by descending score followed by `take k`; ties
resolve toward the lower row index, a deterministic refinement of
torch's unspecified tie order. -/
def topk (k : Nat) (scores : List ℚ) : List (ℚ × Nat) :=
  (List.insertionSort scoreGE (withIdx scores)).take k

/-- `self.image_paths.index(image_path)`: the index of the first
occurrence; `none` models the `ValueError` the code catches. -/
def indexOfFirst (paths : List Path) (q : Path) : Option Nat :=
  match paths with
  | [] => none
  | p :: rest => if p = q then some 0 else (indexOfFirst rest q).map (· + 1)

/-- `ImageEngine._search_by_text`: embed and normalize the text query
(`embedText`, the composite of `tokenize`, `encode_text` and the norm
division), score every row, and return the `min(top_k, len(image_paths))`
best `(score, path)` pairs. -/
def searchByText (embedText : String → Vec) (paths : List Path)
    (feats : List Vec) (q : String) (topK : Nat) : List (ℚ × Path) :=
  let qv := embedText q
  let sims := feats.map (fun f => dot f qv)
  (topk (min topK paths.length) sims).map (fun si => (si.1, paths.getD si.2 ""))

/-- `ImageEngine._search_by_image`: look up the query path's row
(`self.image_paths.index`, first occurrence; `none` models the
`ValueError` branch that emits "not found in index" and returns `[]`),
force the self-similarity to `-1.0`, and rank with
`k = min(top_k, len(image_paths) - 1)`. -/
def searchByImage (paths : List Path) (feats : List Vec) (imagePath : Path)
    (topK : Nat) : Option (List (ℚ × Path)) :=
  match indexOfFirst paths imagePath with
  | none => none
  | some qidx =>
    let qv := feats.getD qidx []
    let sims := feats.map (fun f => dot f qv)
    let simsMasked := sims.set qidx (-1)
    some ((topk (min topK (paths.length - 1)) simsMasked).map
      (fun si => (si.1, paths.getD si.2 "")))

/-- What one `ImageEngine.search` call does: which error it emits (with an
empty return), or which ranked list it returns and through which branch
(`byImage = true` for the `os.path.isfile` branch). -/
inductive SearchOut where
  /-- `error("Please index a directory before searching.")`, returns `[]` -/
  | noIndexError
  /-- `error("Query image ... not found in index.")`, returns `[]` -/
  | queryNotFoundError
  /-- a ranked result list, via `_search_by_image` when `byImage` -/
  | ranked (byImage : Bool) (rs : List (ℚ × Path))
deriving Repr, DecidableEq

/-- `ImageEngine.search`: reject only when `image_features is None`; if the
query string names an existing file (`isFile`, modelling
`os.path.isfile`), dispatch to `_search_by_image`, otherwise to
`_search_by_text`. -/
def search (embedText : String → Vec) (isFile : String → Bool)
    (st : EngineState) (query : String) (topK : Nat) : SearchOut :=
  match st.imageFeatures with
  | none => .noIndexError
  | some feats =>
    if isFile query then
      match searchByImage st.imagePaths feats query topK with
      | none => .queryNotFoundError
      | some rs => .ranked true rs
    else
      .ranked false (searchByText embedText st.imagePaths feats query topK)

/-- `os.path.basename`: the part of a path after the last separator. -/
def basenameOf (p : List Char) : List Char :=
  (p.reverse.takeWhile (fun c => c ≠ '/')).reverse

/-- `sorted(all_paths)` in `_get_directory_hash`. -/
def sortPaths (l : List (List Char)) : List (List Char) :=
  List.insertionSort (· ≤ ·) l

/-- The byte stream `_get_directory_hash` feeds to `hashlib.md5`: for each
path in sorted order, `os.path.basename(file_path)` followed by
`str(os.path.getmtime(file_path))` (the `mtime` parameter).  The digest
is md5 of this stream, so equal streams yield equal digests, and distinct
streams yield distinct digests except for md5 collisions (the "with
overwhelming probability" caveat, which lives outside the model). -/
def hashInput (mtime : List Char → List Char) (paths : List (List Char)) :
    List Char :=
  ((sortPaths paths).map (fun p => basenameOf p ++ mtime p)).flatten

/-- The sequence of cache-file contents a concurrent reader can observe
while `index_directory` persists the cache: `open(cache_path, 'wb')`
truncates the file in place, then `pickle.dump` streams the serialized
bytes, so the reader can see the pre-save content, the empty file, or any
prefix of the new bytes. -/
def saveCacheStates (old new : List Nat) : List (List Nat) :=
  old :: (List.range (new.length + 1)).map (fun n => new.take n)

/-- Modelled from the spec: "writes atomically enough to avoid leaving a
half-written file visible to a concurrent load (write to temp file +
rename, or equivalent)" — every state observable during the save is
either the old content or the complete new content. -/
def atomicallyVisible (old new : List Nat) (states : List (List Nat)) : Prop :=
  ∀ s ∈ states, s = old ∨ s = new

/-! ## Helper lemmas -/

theorem indexOfFirst_none_iff (paths : List Path) (q : Path) :
    indexOfFirst paths q = none ↔ q ∉ paths := by
  induction paths with
  | nil => simp [indexOfFirst]
  | cons p rest ih =>
    unfold indexOfFirst
    by_cases hp : p = q
    · simp [hp]
    · simp only [hp, if_false, Option.map_eq_none', ih, List.mem_cons]
      constructor
      · intro h hmem
        rcases hmem with h' | h'
        · exact hp h'.symm
        · exact h h'
      · intro h hmem
        exact h (Or.inr hmem)

theorem dictGet_append_left (l₁ l₂ : List (Path × Vec)) (p : Path) (v : Vec)
    (h : dictGet l₁ p = some v) : dictGet (l₁ ++ l₂) p = some v := by
  induction l₁ with
  | nil => simp [dictGet] at h
  | cons kv t ih =>
    obtain ⟨k, w⟩ := kv
    by_cases hk : k = p
    · simp [dictGet, hk] at h ⊢
      exact h
    · simp [dictGet, hk] at h ⊢
      exact ih h

theorem dictGet_append_none (l₁ l₂ : List (Path × Vec)) (p : Path)
    (h : dictGet l₁ p = none) : dictGet (l₁ ++ l₂) p = dictGet l₂ p := by
  induction l₁ with
  | nil => rfl
  | cons kv t ih =>
    obtain ⟨k, w⟩ := kv
    by_cases hk : k = p
    · simp [dictGet, hk] at h
    · simp [dictGet, hk] at h ⊢
      exact ih h

theorem dictGet_some_mem (l : List (Path × Vec)) (p : Path) (v : Vec)
    (h : dictGet l p = some v) : (p, v) ∈ l := by
  induction l with
  | nil => simp [dictGet] at h
  | cons kv t ih =>
    obtain ⟨k, w⟩ := kv
    by_cases hk : k = p
    · simp [dictGet, hk] at h
      subst hk
      subst h
      exact List.mem_cons_self _ _
    · simp [dictGet, hk] at h
      exact List.mem_cons_of_mem _ (ih h)

theorem processBatches_cancelled (embedOf : Path → Option Vec)
    (cancel : Nat → Bool) (bs : Nat) (hbs : 0 < bs) :
    ∀ (k : Nat) (l : List Path) (acc : List (Path × Vec)) (c : Nat),
      cancel (c + k) = true → (∀ j < k, cancel (c + j) = false) →
      k * bs < l.length →
      processBatches embedOf cancel bs l acc c = none := by
  intro k
  induction k with
  | zero =>
    intro l acc c hc _ hlen
    match l with
    | [] => simp at hlen
    | p :: ps =>
      rw [processBatches]
      simp only [Nat.add_zero] at hc
      simp [hc]
  | succ k ih =>
    intro l acc c hc hprev hlen
    match l with
    | [] => simp at hlen
    | p :: ps =>
      have h0 : cancel c = false := by
        have := hprev 0 (Nat.succ_pos k)
        simpa using this
      have hrec : processBatches embedOf cancel bs (ps.drop (bs - 1))
          (acc ++ (p :: ps.take (bs - 1)).filterMap
            (fun q => (embedOf q).map ((q, ·)))) (c + 1) = none := by
        apply ih
        · have h1 : c + 1 + k = c + (k + 1) := by omega
          rw [h1]; exact hc
        · intro j hj
          have h1 : c + 1 + j = c + (j + 1) := by omega
          rw [h1]; exact hprev (j + 1) (by omega)
        · rw [List.length_drop]
          have hlen2 : (k + 1) * bs < ps.length + 1 := by
            simpa [List.length_cons] using hlen
          rw [Nat.succ_mul] at hlen2
          omega
      rw [processBatches]
      simp only [h0, Bool.false_eq_true, if_false, hrec]

theorem processBatches_no_cancel (embedOf : Path → Option Vec)
    (cancel : Nat → Bool) (bs : Nat) (hnc : ∀ i, cancel i = false) :
    ∀ (n : Nat) (l : List Path), l.length ≤ n →
      ∀ (acc : List (Path × Vec)) (c : Nat),
      ∃ tail, processBatches embedOf cancel bs l acc c = some (acc ++ tail, l)
        ∧ ∀ pv ∈ tail, embedOf pv.1 = some pv.2 ∧ pv.1 ∈ l := by
  intro n
  induction n with
  | zero =>
    intro l hl acc c
    have h : l = [] := List.length_eq_zero.1 (Nat.le_zero.1 hl)
    subst h
    exact ⟨[], by simp [processBatches], by simp⟩
  | succ n ih =>
    intro l hl acc c
    match l with
    | [] => exact ⟨[], by simp [processBatches], by simp⟩
    | p :: ps =>
      have hrest : (ps.drop (bs - 1)).length ≤ n := by
        rw [List.length_drop]
        simp only [List.length_cons] at hl
        omega
      obtain ⟨tail2, heq, hprop⟩ := ih (ps.drop (bs - 1)) hrest
        (acc ++ (p :: ps.take (bs - 1)).filterMap
          (fun q => (embedOf q).map ((q, ·)))) (c + 1)
      refine ⟨(p :: ps.take (bs - 1)).filterMap
          (fun q => (embedOf q).map ((q, ·))) ++ tail2, ?_, ?_⟩
      · rw [processBatches]
        simp only [hnc, Bool.false_eq_true, if_false]
        rw [heq]
        simp only [List.append_assoc]
        congr 2
        exact congrArg (p :: ·) (List.take_append_drop _ ps)
      · intro pv hpv
        rcases List.mem_append.1 hpv with h | h
        · rcases List.mem_filterMap.1 h with ⟨q, hq, hmap⟩
          rcases Option.map_eq_some'.1 hmap with ⟨v, hv, hpveq⟩
          subst hpveq
          refine ⟨hv, ?_⟩
          rcases List.mem_cons.1 hq with rfl | hq2
          · exact List.mem_cons_self _ _
          · exact List.mem_cons_of_mem _ (List.mem_of_mem_take hq2)
        · obtain ⟨he, hm⟩ := hprop pv h
          exact ⟨he, List.mem_cons_of_mem _ (List.mem_of_mem_drop hm)⟩

theorem processBatches_some (embedOf : Path → Option Vec)
    (cancel : Nat → Bool) (bs : Nat) :
    ∀ (n : Nat) (l : List Path), l.length ≤ n →
      ∀ (acc : List (Path × Vec)) (c : Nat) d es,
      processBatches embedOf cancel bs l acc c = some (d, es) →
      ∃ tail, d = acc ++ tail
        ∧ ∀ pv ∈ tail, embedOf pv.1 = some pv.2 := by
  intro n
  induction n with
  | zero =>
    intro l hl acc c d es h
    have hnil : l = [] := List.length_eq_zero.1 (Nat.le_zero.1 hl)
    subst hnil
    rw [processBatches] at h
    simp at h
    exact ⟨[], by simp [h.1.symm], by simp⟩
  | succ n ih =>
    intro l hl acc c d es h
    match l with
    | [] =>
      rw [processBatches] at h
      simp at h
      exact ⟨[], by simp [h.1.symm], by simp⟩
    | p :: ps =>
      rw [processBatches] at h
      by_cases hc : cancel c
      · simp [hc] at h
      · simp only [hc, Bool.false_eq_true, if_false] at h
        rcases hrec : processBatches embedOf cancel bs (ps.drop (bs - 1))
            (acc ++ (p :: ps.take (bs - 1)).filterMap
              (fun q => (embedOf q).map ((q, ·)))) (c + 1) with _ | ⟨d2, es2⟩
        · rw [hrec] at h
          simp at h
        · rw [hrec] at h
          simp only [Option.some.injEq, Prod.mk.injEq] at h
          obtain ⟨hd, hes⟩ := h
          have hrest : (ps.drop (bs - 1)).length ≤ n := by
            rw [List.length_drop]
            simp only [List.length_cons] at hl
            omega
          obtain ⟨tail2, hd2, hprop⟩ := ih (ps.drop (bs - 1)) hrest _ _ _ _ hrec
          refine ⟨(p :: ps.take (bs - 1)).filterMap
              (fun q => (embedOf q).map ((q, ·))) ++ tail2, ?_, ?_⟩
          · rw [← hd, hd2, List.append_assoc]
          · intro pv hpv
            rcases List.mem_append.1 hpv with hm | hm
            · rcases List.mem_filterMap.1 hm with ⟨q, hq, hmap⟩
              rcases Option.map_eq_some'.1 hmap with ⟨v, hv, hpveq⟩
              subst hpveq
              exact hv
            · exact hprop pv hm

theorem filter_filterMap_forall₂ {α β : Type} (f : α → Option β) (l : List α) :
    List.Forall₂ (fun a b => f a = some b)
      (l.filter (fun a => (f a).isSome)) (l.filterMap f) := by
  induction l with
  | nil => simp
  | cons a t ih =>
    cases hf : f a with
    | none => simpa [List.filter_cons, List.filterMap_cons, hf] using ih
    | some b =>
      simp only [List.filter_cons, List.filterMap_cons, hf, Option.isSome_some,
        if_true]
      exact List.Forall₂.cons hf ih

theorem flatten_payload_ne {β : Type} (f g : β → List Char) (l : List β)
    (p₀ : β) (hmem : p₀ ∈ l) (hnd : l.Nodup)
    (hagree : ∀ p ∈ l, p ≠ p₀ → f p = g p) (hdiff : f p₀ ≠ g p₀) :
    (l.map f).flatten ≠ (l.map g).flatten := by
  induction l with
  | nil => cases hmem
  | cons q t ih =>
    rcases List.mem_cons.1 hmem with rfl | hmem2
    · have hnotin : p₀ ∉ t := (List.nodup_cons.1 hnd).1
      have htail : t.map f = t.map g :=
        List.map_congr_left (fun p hp => hagree p (List.mem_cons_of_mem _ hp)
          (fun h => hnotin (h ▸ hp)))
      simp only [List.map_cons, List.flatten_cons, htail]
      intro h
      exact hdiff (List.append_cancel_right h)
    · have hq : q ≠ p₀ := fun h => ((List.nodup_cons.1 hnd).1) (h ▸ hmem2)
      have hfq : f q = g q := hagree q (List.mem_cons_self _ _) hq
      have ihne := ih hmem2 (List.nodup_cons.1 hnd).2
        (fun p hp hne => hagree p (List.mem_cons_of_mem _ hp) hne)
      simp only [List.map_cons, List.flatten_cons, hfq]
      intro h
      exact ihne (List.append_cancel_left h)

/-! ## Theorems for the claims -/

/-- Claim C10: after every call to `index_directory` returns — whether it
completed, was cancelled, found no images, or hit the unexpected-exception
branch — the engine's `_is_indexing` flag is false (the `finally` block
clears it on every exit path), so the engine is ready for a new run and a
late `stop_indexing` cannot leak into a finished run. -/
theorem indexDirectory_resets_isIndexing
    (embedOf : Path → Option Vec) (cancel : Nat → Bool) (bs : Nat)
    (folder : Path) (allPaths : List Path) (diskCache : Option CacheData)
    (freshHash : String) (st : EngineState) :
    (indexDirectory embedOf cancel bs folder allPaths diskCache freshHash
      st).state.isIndexing = false := by
  unfold indexDirectory
  split
  · rfl
  · dsimp only
    split
    · rfl
    · split <;> rfl

/-- Claim C7 counterexample: saving new cache bytes `[1, 2]` over old
content `[9]` exposes the intermediate states `[]` (the truncated file)
and `[1]` (a half-written file) to a concurrent reader, so the save is not
atomic — there is no temp-file-plus-rename step in the code, only
`open(cache_path, 'wb')` followed by `pickle.dump`. -/
theorem saveCache_not_atomic :
    ¬ atomicallyVisible [9] [1, 2] (saveCacheStates [9] [1, 2]) := by
  unfold atomicallyVisible saveCacheStates
  decide

/-- Claim C7 amended: the cache save writes the serialized bytes directly
to the cache path, truncating in place; a concurrent load can observe the
old content or any partial prefix of the new bytes (including the empty
truncated file), not only the two complete states. -/
theorem saveCacheStates_old_or_partial (old new s : List Nat)
    (hs : s ∈ saveCacheStates old new) :
    s = old ∨ ∃ n, n ≤ new.length ∧ s = new.take n := by
  unfold saveCacheStates at hs
  rcases List.mem_cons.1 hs with h | h
  · exact Or.inl h
  · right
    rcases List.mem_map.1 h with ⟨n, hn, rfl⟩
    exact ⟨n, by simpa using Nat.lt_succ_iff.mp (List.mem_range.1 hn), rfl⟩

/-- Witness for the amended C7 theorem at a concrete half-written state. -/
theorem saveCacheStates_old_or_partial_witness :
    [1] ∈ saveCacheStates [9] [1, 2]
    ∧ ([1] = [9] ∨ ∃ n, n ≤ ([1, 2] : List Nat).length ∧ [1] = [1, 2].take n) :=
  ⟨by decide, saveCacheStates_old_or_partial [9] [1, 2] [1] (by decide)⟩

/-- Claim C1 counterexample: with a cache valid for paths A and B under
the old fingerprint and a scan of A, B, C under a different fresh
fingerprint, `index_directory` discards the cache wholesale (the
`directory_hash` comparison fails, so `cached_data` stays empty): it
feeds all three paths to the embedding pipeline — not only C — and the
resulting snapshot and cache carry freshly computed vectors for A and B
(here `[0]`), not the cached ones (`[1]` and `[2]`). -/
theorem indexDirectory_mismatch_recomputes_all :
    indexDirectory (fun _ => some [0]) (fun _ => false) 1 "dir"
        ["A", "B", "C"] (some ⟨"hOld", [("A", [1]), ("B", [2])]⟩) "hNew"
        ⟨false, [], none, none⟩
      = ⟨⟨false, ["A", "B", "C"], some [[0], [0], [0]], some "dir"⟩,
         some ⟨"hNew", [("A", [0]), ("B", [0]), ("C", [0])]⟩,
         ["A", "B", "C"], .completed⟩
    ∧ (["A", "B", "C"] : List Path) ≠ ["C"]
    ∧ (some [[0], [0], [0]] : Option (List Vec)) ≠ some [[1], [2], [0]] := by
  refine ⟨?_, by decide, by decide⟩
  simp [indexDirectory, processBatches, cachedFrom, pathsToProcessOf, dictGet]

/-- Claim C1 amended: per-path reuse happens only when the stored
fingerprint equals the freshly computed one.  When the fingerprints
differ the cache is ignored entirely and every scanned path is embedded.
When they match, exactly the paths missing from the cached records are
embedded; every cached entry is carried verbatim (same vector) into the
newly written cache; and every cached entry whose path is still present
in the scan appears in the resulting snapshot with its cached vector as
its row.  (A cached path absent from the scan is still written back to
the cache but enters no snapshot row — reachable, since a file moved
between subdirectories keeps the basename-only fingerprint matching
while its old full path drops out of the scan.) -/
theorem indexDirectory_cache_reuse
    (embedOf : Path → Option Vec) (cancel : Nat → Bool) (bs : Nat)
    (hnc : ∀ i, cancel i = false) (folder : Path) (allPaths : List Path)
    (d : CacheData) (freshHash : String) (st : EngineState)
    (hne : allPaths ≠ []) :
    (d.directoryHash ≠ freshHash →
      (indexDirectory embedOf cancel bs folder allPaths (some d) freshHash
        st).embedded = allPaths)
    ∧ (d.directoryHash = freshHash →
        (indexDirectory embedOf cancel bs folder allPaths (some d) freshHash
          st).embedded
            = allPaths.filter (fun p => (dictGet d.features p).isNone)
        ∧ (∀ p v, dictGet d.features p = some v →
            ∃ cw, (indexDirectory embedOf cancel bs folder allPaths (some d)
                freshHash st).cacheWrite = some cw
              ∧ dictGet cw.features p = some v)
        ∧ (∀ p v, dictGet d.features p = some v → p ∈ allPaths →
            ∃ P M,
              (indexDirectory embedOf cancel bs folder allPaths (some d)
                freshHash st).state.imagePaths = P
              ∧ (indexDirectory embedOf cancel bs folder allPaths (some d)
                  freshHash st).state.imageFeatures = some M
              ∧ p ∈ P
              ∧ P.length = M.length
              ∧ ∀ i (h₁ : i < P.length) (h₂ : i < M.length),
                  P.get ⟨i, h₁⟩ = p → M.get ⟨i, h₂⟩ = v)) := by
  have hEmpty : allPaths.isEmpty = false := by
    cases allPaths with
    | nil => exact absurd rfl hne
    | cons a t => rfl
  constructor
  · intro hmm
    have hcf : cachedFrom (some d) freshHash = [] := by
      simp [cachedFrom, hmm]
    have hptp : pathsToProcessOf allPaths (cachedFrom (some d) freshHash)
        = allPaths := by
      rw [hcf]
      simp [pathsToProcessOf, dictGet]
    obtain ⟨tail, heq, -⟩ := processBatches_no_cancel embedOf cancel bs hnc
      (pathsToProcessOf allPaths (cachedFrom (some d) freshHash)).length
      (pathsToProcessOf allPaths (cachedFrom (some d) freshHash)) le_rfl
      (cachedFrom (some d) freshHash) 0
    unfold indexDirectory
    rw [hEmpty]
    simp only [Bool.false_eq_true, if_false, heq]
    split <;> simp [hptp]
  · intro hmatch
    have hcf : cachedFrom (some d) freshHash = d.features := by
      simp [cachedFrom, hmatch]
    obtain ⟨tail, heq, -⟩ := processBatches_no_cancel embedOf cancel bs hnc
      (pathsToProcessOf allPaths (cachedFrom (some d) freshHash)).length
      (pathsToProcessOf allPaths (cachedFrom (some d) freshHash)) le_rfl
      (cachedFrom (some d) freshHash) 0
    refine ⟨?_, ?_, ?_⟩
    · unfold indexDirectory
      rw [hEmpty]
      simp only [Bool.false_eq_true, if_false, heq]
      split <;> simp [pathsToProcessOf, hcf]
    · intro p v hv
      unfold indexDirectory
      rw [hEmpty]
      simp only [Bool.false_eq_true, if_false, heq]
      have hget : dictGet (cachedFrom (some d) freshHash ++ tail) p = some v :=
        dictGet_append_left _ _ _ _ (by rw [hcf]; exact hv)
      split
      · exact ⟨_, rfl, hget⟩
      · exact ⟨_, rfl, hget⟩
    · intro p v hv hpmem
      have hget : dictGet (cachedFrom (some d) freshHash ++ tail) p = some v :=
        dictGet_append_left _ _ _ _ (by rw [hcf]; exact hv)
      have hvmem : v ∈ allPaths.filterMap
          (dictGet (cachedFrom (some d) freshHash ++ tail)) :=
        List.mem_filterMap.2 ⟨p, hpmem, hget⟩
      have hFne : (allPaths.filterMap
          (dictGet (cachedFrom (some d) freshHash ++ tail))).isEmpty
            = false := by
        cases hFcase : (allPaths.filterMap
            (dictGet (cachedFrom (some d) freshHash ++ tail))).isEmpty with
        | false => rfl
        | true =>
          rw [List.isEmpty_iff.1 hFcase] at hvmem
          cases hvmem
      unfold indexDirectory
      rw [hEmpty]
      simp only [Bool.false_eq_true, if_false, heq, hFne]
      refine ⟨_, _, rfl, rfl, ?_, ?_, ?_⟩
      · exact List.mem_filter.2 ⟨hpmem, by rw [hget]; rfl⟩
      · exact (filter_filterMap_forall₂
          (dictGet (cachedFrom (some d) freshHash ++ tail))
          allPaths).length_eq
      · intro i h₁ h₂ hPi
        have hcorr := (List.forall₂_iff_get.1 (filter_filterMap_forall₂
          (dictGet (cachedFrom (some d) freshHash ++ tail))
          allPaths)).2 i h₁ h₂
        rw [hPi, hget] at hcorr
        exact (Option.some_injective _ hcorr).symm

/-- Witness for the amended C1 theorem: with a matching fingerprint and A
cached, only B is embedded, A's cached vector is written back unchanged,
and A appears in the snapshot with the cached vector as its row. -/
theorem indexDirectory_cache_reuse_witness :
    ((indexDirectory (fun _ => some [5]) (fun _ => false) 1 "dir" ["A", "B"]
        (some ⟨"h", [("A", [1])]⟩) "h"
        ⟨false, [], none, none⟩).embedded = ["B"])
    ∧ (∃ cw, (indexDirectory (fun _ => some [5]) (fun _ => false) 1 "dir"
        ["A", "B"] (some ⟨"h", [("A", [1])]⟩) "h"
        ⟨false, [], none, none⟩).cacheWrite = some cw
        ∧ dictGet cw.features "A" = some [1])
    ∧ (∃ P M,
        (indexDirectory (fun _ => some [5]) (fun _ => false) 1 "dir"
          ["A", "B"] (some ⟨"h", [("A", [1])]⟩) "h"
          ⟨false, [], none, none⟩).state.imagePaths = P
        ∧ (indexDirectory (fun _ => some [5]) (fun _ => false) 1 "dir"
            ["A", "B"] (some ⟨"h", [("A", [1])]⟩) "h"
            ⟨false, [], none, none⟩).state.imageFeatures = some M
        ∧ "A" ∈ P
        ∧ P.length = M.length
        ∧ ∀ i (h₁ : i < P.length) (h₂ : i < M.length),
            P.get ⟨i, h₁⟩ = "A" → M.get ⟨i, h₂⟩ = [1]) := by
  have h := (indexDirectory_cache_reuse (fun _ => some [5]) (fun _ => false) 1
    (fun _ => rfl) "dir" ["A", "B"] ⟨"h", [("A", [1])]⟩ "h"
    ⟨false, [], none, none⟩ (by decide)).2 rfl
  refine ⟨?_, h.2.1 "A" [1] (by simp [dictGet]),
    h.2.2 "A" [1] (by simp [dictGet]) (by decide)⟩
  rw [h.1]
  simp [dictGet]

/-- Claim C2: if the cancellation flag is raised before some batch that
the run still has to process, `index_directory` stops at that batch
boundary with the cancellation outcome (the `finished` channel, not
`error`), writes nothing to the cache file, and leaves the pre-run
`image_paths` and `image_features` untouched.  The hypothesis fixes the
flag's history as "becomes and stays true from batch `i₀` on" with batch
`i₀` existing (`i₀ * bs` is still within `paths_to_process`). -/
theorem indexDirectory_cancellation_frame
    (embedOf : Path → Option Vec) (cancel : Nat → Bool) (bs : Nat)
    (hbs : 0 < bs) (folder : Path) (allPaths : List Path)
    (diskCache : Option CacheData) (freshHash : String) (st : EngineState)
    (i₀ : Nat) (hcan : ∀ j, cancel j = true ↔ i₀ ≤ j)
    (hbatch : i₀ * bs
      < (pathsToProcessOf allPaths (cachedFrom diskCache freshHash)).length) :
    indexDirectory embedOf cancel bs folder allPaths diskCache freshHash st
      = ⟨{ st with isIndexing := false, currentDirectory := some folder },
         none, [], .cancelled⟩ := by
  have hne : allPaths.isEmpty = false := by
    cases allPaths with
    | nil => simp [pathsToProcessOf] at hbatch
    | cons a t => rfl
  have hnone := processBatches_cancelled embedOf cancel bs hbs i₀
    (pathsToProcessOf allPaths (cachedFrom diskCache freshHash))
    (cachedFrom diskCache freshHash) 0
    (by simpa using (hcan i₀).2 le_rfl)
    (fun j hj => by
      rw [Nat.zero_add]
      cases h : cancel j with
      | false => rfl
      | true => exact absurd ((hcan j).1 h) (by omega))
    (by simpa using hbatch)
  unfold indexDirectory
  rw [hne]
  simp only [Bool.false_eq_true, if_false, hnone]

/-- Witness for C2: cancelling before the first batch of a one-image run
leaves the previous snapshot and cache untouched. -/
theorem indexDirectory_cancellation_frame_witness :
    indexDirectory (fun _ => some [0]) (fun _ => true) 1 "dir" ["a"] none "h"
        ⟨false, ["old"], some [[9]], none⟩
      = ⟨⟨false, ["old"], some [[9]], some "dir"⟩, none, [], .cancelled⟩ :=
  indexDirectory_cancellation_frame _ _ _ (by decide) _ _ _ _ _ 0
    (fun j => by simp) (by decide)

/-- Claim C5: every successfully completed indexing run produces a
snapshot whose path list and feature matrix have equal length, where row
`i` of the matrix is exactly the stored record of `paths[i]` in the
written cache, and every scanned path without a surviving record (its
decode failed and it was not cached) appears in neither list. -/
theorem indexDirectory_snapshot_aligned
    (embedOf : Path → Option Vec) (cancel : Nat → Bool) (bs : Nat)
    (folder : Path) (allPaths : List Path) (diskCache : Option CacheData)
    (freshHash : String) (st : EngineState)
    (hdone : (indexDirectory embedOf cancel bs folder allPaths diskCache
      freshHash st).outcome = .completed) :
    ∃ P M cw,
      (indexDirectory embedOf cancel bs folder allPaths diskCache freshHash
        st).state.imagePaths = P
      ∧ (indexDirectory embedOf cancel bs folder allPaths diskCache freshHash
          st).state.imageFeatures = some M
      ∧ (indexDirectory embedOf cancel bs folder allPaths diskCache freshHash
          st).cacheWrite = some cw
      ∧ P.length = M.length
      ∧ (∀ i (h₁ : i < P.length) (h₂ : i < M.length),
          dictGet cw.features (P.get ⟨i, h₁⟩) = some (M.get ⟨i, h₂⟩))
      ∧ (∀ p ∈ allPaths, embedOf p = none →
          dictGet (cachedFrom diskCache freshHash) p = none → p ∉ P) := by
  by_cases hE : allPaths.isEmpty
  · unfold indexDirectory at hdone
    rw [if_pos hE] at hdone
    simp at hdone
  · rw [Bool.not_eq_true] at hE
    rcases hpb : processBatches embedOf cancel bs
        (pathsToProcessOf allPaths (cachedFrom diskCache freshHash))
        (cachedFrom diskCache freshHash) 0 with _ | ⟨finalData, es⟩
    · unfold indexDirectory at hdone
      rw [hE] at hdone
      simp only [Bool.false_eq_true, if_false, hpb] at hdone
      simp at hdone
    · by_cases hF : (allPaths.filterMap (dictGet finalData)).isEmpty
      · unfold indexDirectory at hdone
        rw [hE] at hdone
        simp only [Bool.false_eq_true, if_false, hpb, hF, if_true] at hdone
        simp at hdone
      · rw [Bool.not_eq_true] at hF
        unfold indexDirectory
        rw [hE]
        simp only [Bool.false_eq_true, if_false, hpb, hF]
        refine ⟨allPaths.filter (fun p => (dictGet finalData p).isSome),
          allPaths.filterMap (dictGet finalData), ⟨freshHash, finalData⟩,
          rfl, rfl, rfl, ?_, ?_, ?_⟩
        · exact (filter_filterMap_forall₂ (dictGet finalData) allPaths).length_eq
        · intro i h₁ h₂
          exact (List.forall₂_iff_get.1
            (filter_filterMap_forall₂ (dictGet finalData) allPaths)).2 i h₁ h₂
        · intro p hp hemb hcached hmemP
          have hsome := List.of_mem_filter hmemP
          obtain ⟨tail, hd, hprop⟩ := processBatches_some embedOf cancel bs
            (pathsToProcessOf allPaths (cachedFrom diskCache freshHash)).length
            (pathsToProcessOf allPaths (cachedFrom diskCache freshHash))
            le_rfl _ _ _ _ hpb
          have hget : dictGet finalData p = dictGet tail p := by
            rw [hd]
            exact dictGet_append_none _ _ _ hcached
          rw [hget] at hsome
          rcases hv : dictGet tail p with _ | v
          · rw [hv] at hsome
            simp at hsome
          · have hmem := dictGet_some_mem _ _ _ hv
            have hpe := hprop (p, v) hmem
            simp only at hpe
            rw [hemb] at hpe
            cases hpe

/-- Witness for C5 on a one-image successful run. -/
theorem indexDirectory_snapshot_aligned_witness :
    ∃ P M cw,
      (indexDirectory (fun _ => some [7]) (fun _ => false) 1 "dir" ["a"]
        none "h" ⟨false, [], none, none⟩).state.imagePaths = P
      ∧ (indexDirectory (fun _ => some [7]) (fun _ => false) 1 "dir" ["a"]
          none "h" ⟨false, [], none, none⟩).state.imageFeatures = some M
      ∧ (indexDirectory (fun _ => some [7]) (fun _ => false) 1 "dir" ["a"]
          none "h" ⟨false, [], none, none⟩).cacheWrite = some cw
      ∧ P.length = M.length
      ∧ (∀ i (h₁ : i < P.length) (h₂ : i < M.length),
          dictGet cw.features (P.get ⟨i, h₁⟩) = some (M.get ⟨i, h₂⟩))
      ∧ (∀ p ∈ ["a"], (fun _ => some [7] : Path → Option Vec) p = none →
          dictGet (cachedFrom none "h") p = none → p ∉ P) :=
  indexDirectory_snapshot_aligned (fun _ => some [7]) (fun _ => false) 1 "dir"
    ["a"] none "h" ⟨false, [], none, none⟩
    (by simp [indexDirectory, processBatches, cachedFrom, pathsToProcessOf,
      dictGet])

/-- Claim C6 counterexample: renaming `d1/x.jpg` to `d2/x.jpg` — moving
the file to a sibling subdirectory, which keeps its basename and its
modification time — leaves the byte stream fed to md5 unchanged, because
`_get_directory_hash` hashes only `os.path.basename(file_path)` and the
mtime, never the directory component.  The digest is therefore
deterministically identical, not merely colliding. -/
theorem fingerprint_unchanged_by_subdir_move :
    hashInput (fun _ => "100.0".toList) ["d1/x.jpg".toList]
      = hashInput (fun _ => "100.0".toList) ["d2/x.jpg".toList]
    ∧ (["d1/x.jpg".toList] : List (List Char)) ≠ ["d2/x.jpg".toList] := by
  constructor
  · decide
  · decide

/-- Claim C6 amended: the fingerprint input stream is deterministic in
the scanned set (any reordering of the same paths with the same mtimes
yields the same stream, hence the same digest); touching one file's mtime
changes the stream, as does adding or removing a file with a nonempty
basename; but a rename is only guaranteed to change it when it alters the
basename — moving a file between subdirectories while keeping basename
and mtime leaves the stream (and digest) unchanged. -/
theorem fingerprint_determinism_and_sensitivity
    (mt₁ mt₂ : List Char → List Char) (paths other : List (List Char))
    (p₀ : List Char) :
    (paths.Perm other → hashInput mt₁ paths = hashInput mt₁ other)
    ∧ (paths.Nodup → p₀ ∈ paths → (∀ p ∈ paths, p ≠ p₀ → mt₁ p = mt₂ p) →
        mt₁ p₀ ≠ mt₂ p₀ → hashInput mt₁ paths ≠ hashInput mt₂ paths)
    ∧ (basenameOf p₀ ≠ [] →
        hashInput mt₁ (p₀ :: paths) ≠ hashInput mt₁ paths) := by
  refine ⟨?_, ?_, ?_⟩
  · intro hperm
    have heq : sortPaths paths = sortPaths other :=
      List.eq_of_perm_of_sorted
        (((List.perm_insertionSort _ paths).trans hperm).trans
          (List.perm_insertionSort _ other).symm)
        (List.sorted_insertionSort _ paths) (List.sorted_insertionSort _ other)
    unfold hashInput
    rw [heq]
  · intro hnd hmem hagree hdiff
    unfold hashInput
    apply flatten_payload_ne _ _ _ p₀
    · exact (List.perm_insertionSort _ paths).mem_iff.2 hmem
    · exact hnd.perm (List.perm_insertionSort _ paths).symm
    · intro p hp hne
      rw [hagree p ((List.perm_insertionSort _ paths).mem_iff.1 hp) hne]
    · intro h
      exact hdiff (List.append_cancel_left h)
  · intro hbase heq
    have hlen := congrArg List.length heq
    have key : ∀ mt : List Char → List Char, ∀ l : List (List Char),
        (hashInput mt l).length
          = (l.map (fun p => (basenameOf p ++ mt p).length)).sum := by
      intro mt l
      unfold hashInput
      rw [List.length_flatten, List.map_map]
      exact ((List.perm_insertionSort _ l).map _).sum_eq
    rw [key, key, List.map_cons, List.sum_cons] at hlen
    have hzero : (basenameOf p₀ ++ mt₁ p₀).length = 0 := by omega
    rw [List.length_append] at hzero
    exact hbase (List.length_eq_zero.1 (by omega))

/-- Witness for the amended C6 theorem: reordering is harmless; touching
one mtime changes the stream; adding a file changes the stream. -/
theorem fingerprint_determinism_and_sensitivity_witness :
    hashInput (fun _ => "1.0".toList) ["a.jpg".toList, "b.jpg".toList]
      = hashInput (fun _ => "1.0".toList) ["b.jpg".toList, "a.jpg".toList]
    ∧ hashInput (fun _ => "1.0".toList) ["a.jpg".toList]
      ≠ hashInput (fun _ => "2.0".toList) ["a.jpg".toList]
    ∧ hashInput (fun _ => "1.0".toList) ["b.jpg".toList, "a.jpg".toList]
      ≠ hashInput (fun _ => "1.0".toList) ["a.jpg".toList] :=
  ⟨(fingerprint_determinism_and_sensitivity (fun _ => "1.0".toList)
      (fun _ => "1.0".toList) ["a.jpg".toList, "b.jpg".toList]
      ["b.jpg".toList, "a.jpg".toList] []).1 (by decide),
   (fingerprint_determinism_and_sensitivity (fun _ => "1.0".toList)
      (fun _ => "2.0".toList) ["a.jpg".toList] ["a.jpg".toList]
      "a.jpg".toList).2.1 (by decide) (by decide) (by decide) (by decide),
   (fingerprint_determinism_and_sensitivity (fun _ => "1.0".toList)
      (fun _ => "1.0".toList) ["a.jpg".toList] ["a.jpg".toList]
      "b.jpg".toList).2.2 (by decide)⟩

/-- Claim C9: `search` dispatches a string query that names an existing
file (`os.path.isfile`) to image-by-path search — never to text search —
and when that path is absent from the snapshot it yields the
query-not-found error with an empty result; text search runs only for
strings that are not existing files, so a text query that coincides with
an existing file's path can never be searched as text. -/
theorem search_dispatch (embedText : String → Vec) (isFile : String → Bool)
    (st : EngineState) (query : String) (topK : Nat)
    (feats : List Vec) (hf : st.imageFeatures = some feats) :
    (isFile query = true →
      (∀ rs, search embedText isFile st query topK ≠ .ranked false rs)
      ∧ (query ∉ st.imagePaths →
          search embedText isFile st query topK = .queryNotFoundError))
    ∧ (isFile query = false →
        search embedText isFile st query topK
          = .ranked false
              (searchByText embedText st.imagePaths feats query topK)) := by
  constructor
  · intro hfile
    constructor
    · intro rs
      unfold search
      rw [hf]
      simp only [hfile, if_true]
      rcases hidx : searchByImage st.imagePaths feats query topK with _ | rs2
      · simp
      · simp
    · intro hnotmem
      have hnone : indexOfFirst st.imagePaths query = none :=
        (indexOfFirst_none_iff _ _).2 hnotmem
      have hsb : searchByImage st.imagePaths feats query topK = none := by
        unfold searchByImage
        rw [hnone]
      unfold search
      rw [hf]
      simp only [hfile, if_true, hsb]
  · intro hfile
    unfold search
    rw [hf]
    simp only [hfile, Bool.false_eq_true, if_false]

/-- Witness for C9: a query naming an existing file that is not in the
snapshot produces the not-found error, not a text search. -/
theorem search_dispatch_witness :
    search (fun _ => [1]) (fun _ => true)
        ⟨false, ["a"], some [[1]], none⟩ "zz" 1
      = .queryNotFoundError :=
  ((search_dispatch (fun _ => [1]) (fun _ => true)
      ⟨false, ["a"], some [[1]], none⟩ "zz" 1 [[1]] rfl).1 rfl).2 (by decide)

end ClipSearch
